import Mathlib

/-!
Shallow embedding of the SightScanner Grad-CAM analysis core
(`computeGradCAM`, `normalizeHeatmap`, `computeMetrics`, `calculateLCC`,
`calculateLeftRightSymmetry`, `calculateTopBottomSymmetry`,
`getLastConvLayerName`, `preprocessScanData`), with theorems checking the
specified properties against these definitions.

Tensors and 2D matrices are modelled as functions from natural-number
indices to rationals, together with explicit dimensions; JavaScript
numbers become `ℚ` and `Math.floor` becomes `Int.floor`.
-/

namespace SightScanner

/-! ### Heatmap grids

A heatmap of shape `h × w` is a function `ℕ → ℕ → ℚ` read at indices
`i < h`, `j < w` (row-major, mirroring `heatmapArray[i][j]`). -/

/-- Row-major list of all cell indices of an `h × w` grid, mirroring the
nested `for (i) for (j)` loops of the source. -/
def cellsList (h w : ℕ) : List (ℕ × ℕ) :=
  (List.range h).flatMap fun i => (List.range w).map fun j => (i, j)

/-! ### Normalizer (`normalizeHeatmap`, part_005 lines 241–256)

`tf.min`/`tf.max` reduce over every entry of the tensor; they are embedded
as a fold of `min`/`max` over the cell list, seeded with the first entry
(the tensor is non-empty whenever `0 < h` and `0 < w`, and then the seed
is itself one of the entries). -/

/-- Minimum entry of the raw map (embedding of `tf.min(heatmap)`). -/
def minVal (v : ℕ → ℕ → ℚ) (h w : ℕ) : ℚ :=
  ((cellsList h w).map fun p => v p.1 p.2).foldl min (v 0 0)

/-- Maximum entry of the raw map (embedding of `tf.max(heatmap)`). -/
def maxVal (v : ℕ → ℕ → ℚ) (h w : ℕ) : ℚ :=
  ((cellsList h w).map fun p => v p.1 p.2).foldl max (v 0 0)

/-- Embedding of `normalizeHeatmap`: `range = max - min`;
`normalizedRange = (range == 0 ? 1 : range)` (the `tf.where` guard);
output entry `(x - min) / normalizedRange`. -/
def normalizeHeatmap (v : ℕ → ℕ → ℚ) (h w : ℕ) : ℕ → ℕ → ℚ :=
  fun i j =>
    let lo := minVal v h w
    let range := maxVal v h w - lo
    (v i j - lo) / (if range = 0 then 1 else range)

/-! ### Symmetry scores (`calculateLeftRightSymmetry` part_005 lines 372–389,
`calculateTopBottomSymmetry` lines 394–411)

The loops accumulate `totalDiff = Σ|left − right|` and
`totalIntensity = Σ max(left,right)` over `i < height`,
`j < floor(width/2)` (resp. `i < floor(height/2)`, `j < width`). -/

/-- `totalDiff` accumulated by `calculateLeftRightSymmetry`. -/
def totalDiffLR (v : ℕ → ℕ → ℚ) (h w : ℕ) : ℚ :=
  ∑ i ∈ Finset.range h, ∑ j ∈ Finset.range (w / 2), |v i j - v i (w - 1 - j)|

/-- `totalIntensity` accumulated by `calculateLeftRightSymmetry`. -/
def totalIntensityLR (v : ℕ → ℕ → ℚ) (h w : ℕ) : ℚ :=
  ∑ i ∈ Finset.range h, ∑ j ∈ Finset.range (w / 2), max (v i j) (v i (w - 1 - j))

/-- Embedding of `calculateLeftRightSymmetry`:
`totalIntensity > 0 ? Math.max(0, 1 - totalDiff / totalIntensity) : 1`. -/
def calculateLeftRightSymmetry (v : ℕ → ℕ → ℚ) (h w : ℕ) : ℚ :=
  if 0 < totalIntensityLR v h w then
    max 0 (1 - totalDiffLR v h w / totalIntensityLR v h w)
  else 1

/-- `totalDiff` accumulated by `calculateTopBottomSymmetry`. -/
def totalDiffTB (v : ℕ → ℕ → ℚ) (h w : ℕ) : ℚ :=
  ∑ i ∈ Finset.range (h / 2), ∑ j ∈ Finset.range w, |v i j - v (h - 1 - i) j|

/-- `totalIntensity` accumulated by `calculateTopBottomSymmetry`. -/
def totalIntensityTB (v : ℕ → ℕ → ℚ) (h w : ℕ) : ℚ :=
  ∑ i ∈ Finset.range (h / 2), ∑ j ∈ Finset.range w, max (v i j) (v (h - 1 - i) j)

/-- Embedding of `calculateTopBottomSymmetry`. -/
def calculateTopBottomSymmetry (v : ℕ → ℕ → ℚ) (h w : ℕ) : ℚ :=
  if 0 < totalIntensityTB v h w then
    max 0 (1 - totalDiffTB v h w / totalIntensityTB v h w)
  else 1

/-- The left-right symmetry score as the spec states it: pair each column
`j < floor(cols/2)` with its mirror `cols-1-j`, accumulate `Σ|left−right|`
and `Σ max(left,right)` over all rows, and return
`max(0, 1 − Σdiff/Σmax)`, with score `1` when `Σmax = 0`. -/
def symLRSpec (v : ℕ → ℕ → ℚ) (h w : ℕ) : ℚ :=
  let sdiff := ∑ i ∈ Finset.range h, ∑ j ∈ Finset.range (w / 2),
    |v i j - v i (w - 1 - j)|
  let smax := ∑ i ∈ Finset.range h, ∑ j ∈ Finset.range (w / 2),
    max (v i j) (v i (w - 1 - j))
  if smax = 0 then 1 else max 0 (1 - sdiff / smax)

/-- The top-bottom symmetry score as the spec states it: the identical
construction mirrored across rows instead of columns. -/
def symTBSpec (v : ℕ → ℕ → ℚ) (h w : ℕ) : ℚ :=
  let sdiff := ∑ i ∈ Finset.range (h / 2), ∑ j ∈ Finset.range w,
    |v i j - v (h - 1 - i) j|
  let smax := ∑ i ∈ Finset.range (h / 2), ∑ j ∈ Finset.range w,
    max (v i j) (v (h - 1 - i) j)
  if smax = 0 then 1 else max 0 (1 - sdiff / smax)

/-! ### Percent affected (`computeMetrics`, part_005 lines 280–295)

The source fixes `threshold = 0.5`; the counting loop is embedded
parametrically in that threshold constant. -/

/-- Number of cells with value strictly above the threshold
(the `affectedPixels` counter). -/
def affectedPixels (v : ℕ → ℕ → ℚ) (h w : ℕ) (t : ℚ) : ℕ :=
  (((Finset.range h) ×ˢ (Finset.range w)).filter fun p => t < v p.1 p.2).card

/-- Embedding of `percentAffected = (affectedPixels / totalPixels) * 100`
with `totalPixels = height * width`. -/
def percentAffected (v : ℕ → ℕ → ℚ) (h w : ℕ) (t : ℚ) : ℚ :=
  ((affectedPixels v h w t : ℚ) / ((h * w : ℕ) : ℚ)) * 100

/-! ### Centroid (`computeMetrics`, part_005 lines 297–312) -/

/-- `sumX = Σ j · v i j` accumulated by the centroid loop. -/
def sumX (v : ℕ → ℕ → ℚ) (h w : ℕ) : ℚ :=
  ∑ i ∈ Finset.range h, ∑ j ∈ Finset.range w, (j : ℚ) * v i j

/-- `sumY = Σ i · v i j` accumulated by the centroid loop. -/
def sumY (v : ℕ → ℕ → ℚ) (h w : ℕ) : ℚ :=
  ∑ i ∈ Finset.range h, ∑ j ∈ Finset.range w, (i : ℚ) * v i j

/-- `sumIntensity = Σ v i j` accumulated by the centroid loop. -/
def sumIntensity (v : ℕ → ℕ → ℚ) (h w : ℕ) : ℚ :=
  ∑ i ∈ Finset.range h, ∑ j ∈ Finset.range w, v i j

/-- Embedding of the centroid:
`x = sumIntensity > 0 ? sumX / sumIntensity : width / 2` and
`y = sumIntensity > 0 ? sumY / sumIntensity : height / 2`. -/
def centroid (v : ℕ → ℕ → ℚ) (h w : ℕ) : ℚ × ℚ :=
  (if 0 < sumIntensity v h w then sumX v h w / sumIntensity v h w
    else (w : ℚ) / 2,
   if 0 < sumIntensity v h w then sumY v h w / sumIntensity v h w
    else (h : ℚ) / 2)

/-! ### CAM computation (`computeGradCAM`, part_005 lines 184–198)

Activation and gradient tensors carry the batch dimension of the source
(`[1, h, w, c]`) and are modelled as `ℕ → ℕ → ℕ → ℕ → ℚ` applied to
`(batch, row, col, channel)`. -/

/-- Embedding of `tf.mean(grads, [0, 1, 2])`: the sum over the batch axis
and both spatial axes divided by the number of pooled positions
`1 · h · w`, per channel. -/
def pooledGrads (G : ℕ → ℕ → ℕ → ℕ → ℚ) (h w : ℕ) (k : ℕ) : ℚ :=
  (∑ b ∈ Finset.range 1, ∑ i ∈ Finset.range h, ∑ j ∈ Finset.range w, G b i j k) /
    ((1 * h * w : ℕ) : ℚ)

/-- Embedding of
`tf.mul(convOutputs.squeeze([0]), pooledGrads.expandDims(0).expandDims(0))`:
the squeezed activation entry times the broadcast pooled gradient of its
channel. -/
def weightedConvOutputs (A G : ℕ → ℕ → ℕ → ℕ → ℚ) (h w : ℕ)
    (i j k : ℕ) : ℚ :=
  A 0 i j k * pooledGrads G h w k

/-- Embedding of `tf.relu(tf.sum(weightedConvOutputs, -1))`: the raw CAM
entry before normalization. -/
def camRawMap (A G : ℕ → ℕ → ℕ → ℕ → ℚ) (h w c : ℕ) (i j : ℕ) : ℚ :=
  max 0 (∑ k ∈ Finset.range c, weightedConvOutputs A G h w i j k)

/-- The raw map as the spec states it, over batchless `[h,w,c]` tensors:
`weight[k]` is the mean of `G[·,·,k]` over the `h·w` spatial positions and
`raw[i,j] = max(0, Σ_k weight[k] · A[i,j,k])`. -/
def camRawMapSpec (A G : ℕ → ℕ → ℕ → ℚ) (h w c : ℕ) (i j : ℕ) : ℚ :=
  max 0 (∑ k ∈ Finset.range c,
    ((∑ p ∈ Finset.range h, ∑ q ∈ Finset.range w, G p q k) / ((h * w : ℕ) : ℚ)) *
      A i j k)

/-! ### Model layer search (`getLastConvLayerName` part_005 lines 224–236
and the failure check of `computeGradCAM`, part_005 lines 159–164)

A classifier layer is modelled by its class name, its layer name and the
spatial extent of its output feature map. The source inspects only the
class name. -/

structure LayerInfo where
  className : String
  layerName : String
  spatialH : ℕ
  spatialW : ℕ

/-- Embedding of `getLastConvLayerName`: iterate the layer list from its
last element towards its first (the list tail is searched before the
head) and return the name of the first layer whose class name is
`"Conv2D"`, or `none`. -/
def getLastConvLayerName : List LayerInfo → Option String
  | [] => none
  | l :: ls =>
    match getLastConvLayerName ls with
    | some n => some n
    | none => if l.className = "Conv2D" then some l.layerName else none

/-- Embedding of the guard at the head of `computeGradCAM`:
`if (!convLayerName) throw new Error('No convolutional layer found in model')`,
the thrown value being a plain `Error` carrying only that message
string. -/
def computeGradCAMLayerCheck (layers : List LayerInfo) : Except String String :=
  match getLastConvLayerName layers with
  | none => Except.error "No convolutional layer found in model"
  | some n => Except.ok n

/-- Claim C6 as stated: the CAM computation fails exactly on classifiers
exposing no feature layer with spatial extent greater than 1×1. -/
def camFailsIffNoSpatialLayer : Prop :=
  ∀ layers : List LayerInfo,
    computeGradCAMLayerCheck layers =
        Except.error "No convolutional layer found in model" ↔
      ¬ ∃ l ∈ layers, 1 < l.spatialH ∧ 1 < l.spatialW

/-! ### Grid encoding (`preprocessScanData`, part_006 lines 53–94)

Trail points carry rational pixel coordinates; `Math.floor` is `Int.floor`.
The boolean occupancy grid is a row-major `List (List Bool)`. -/

/-- `cols = Math.floor(screenDimensions.width / gridSize)`. -/
def gridColsZ (width cellSize : ℚ) : ℤ := ⌊width / cellSize⌋

/-- `rows = Math.floor(screenDimensions.height / gridSize)`. -/
def gridRowsZ (height cellSize : ℚ) : ℤ := ⌊height / cellSize⌋

/-- Read cell `(r, c)` of the grid; indices outside the grid read `false`. -/
def getCell (g : List (List Bool)) (r c : ℕ) : Bool :=
  (((g[r]?).getD [])[c]?).getD false

/-- Write `true` into cell `(r, c)` of the grid
(`booleanGrid[gridY][gridX] = true`). -/
def setCell (g : List (List Bool)) (r c : ℕ) : List (List Bool) :=
  g.set r (((g[r]?).getD []).set c true)

/-- Embedding of the per-point loop body of `preprocessScanData`: compute
`gridX = ⌊x / gridSize⌋`, `gridY = ⌊y / gridSize⌋` and mark the cell when
`gridX >= 0 && gridX < cols && gridY >= 0 && gridY < rows`. -/
def markPoint (width height cellSize : ℚ) (g : List (List Bool))
    (p : ℚ × ℚ) : List (List Bool) :=
  if 0 ≤ ⌊p.1 / cellSize⌋ ∧ ⌊p.1 / cellSize⌋ < gridColsZ width cellSize ∧
      0 ≤ ⌊p.2 / cellSize⌋ ∧ ⌊p.2 / cellSize⌋ < gridRowsZ height cellSize then
    setCell g (⌊p.2 / cellSize⌋).toNat (⌊p.1 / cellSize⌋).toNat
  else g

/-- Embedding of the trails branch of `preprocessScanData`: start from an
all-`false` `rows × cols` grid and mark every point of every trail. -/
def encodeTrails (trails : List (List (ℚ × ℚ))) (width height cellSize : ℚ) :
    List (List Bool) :=
  trails.foldl (fun g trail => trail.foldl (markPoint width height cellSize) g)
    (List.replicate (gridRowsZ height cellSize).toNat
      (List.replicate (gridColsZ width cellSize).toNat false))

/-- The grid has `rows` rows, each of `cols` cells. -/
def gridShape (g : List (List Bool)) (rows cols : ℕ) : Prop :=
  g.length = rows ∧ ∀ row ∈ g, row.length = cols

/-! ### Largest connected component (`calculateLCC`, part_005 lines 333–367)

The source's recursive `dfs` closure mutates a shared `visited` matrix and
returns the component size; the embedding threads the visited set
explicitly and carries a fuel parameter. The fuel passed at every call
site is `h*w + 1`, which dominates the deepest possible recursion: every
recursive level first marks a previously unvisited cell, so the depth
never exceeds the cell count plus one and the fuel never runs out on the
calls actually made. Indices are integers because the source recurses to
`row-1`/`col-1` and relies on the `row < 0`/`col < 0` guard. -/

/-- Embedding of the `dfs` closure: bounds / visited / threshold guard,
mark the cell, recurse to the four 4-connected neighbours in source order
(`row+1`, `row-1`, `col+1`, `col-1`), and return `1` plus the recursive
sizes. -/
def dfs (v : ℕ → ℕ → ℚ) (t : ℚ) (h w : ℕ) :
    ℕ → Finset (ℤ × ℤ) → ℤ → ℤ → Finset (ℤ × ℤ) × ℕ
  | 0, vis, _, _ => (vis, 0)
  | fuel + 1, vis, r, c =>
    if r < 0 ∨ (h : ℤ) ≤ r ∨ c < 0 ∨ (w : ℤ) ≤ c ∨ (r, c) ∈ vis ∨
        v r.toNat c.toNat ≤ t then
      (vis, 0)
    else
      let s1 := dfs v t h w fuel (insert (r, c) vis) (r + 1) c
      let s2 := dfs v t h w fuel s1.1 (r - 1) c
      let s3 := dfs v t h w fuel s2.1 r (c + 1)
      let s4 := dfs v t h w fuel s3.1 r (c - 1)
      (s4.1, 1 + s1.2 + s2.2 + s3.2 + s4.2)

/-- Embedding of the body of the scanning double loop of `calculateLCC`:
`if (!visited[i][j] && heatmap[i][j] > threshold) { maxSize = max(maxSize,
dfs(i, j)) }`, threading the visited set. -/
def lccStep (v : ℕ → ℕ → ℚ) (t : ℚ) (h w : ℕ)
    (st : Finset (ℤ × ℤ) × ℕ) (ij : ℕ × ℕ) : Finset (ℤ × ℤ) × ℕ :=
  if ((ij.1 : ℤ), (ij.2 : ℤ)) ∉ st.1 ∧ t < v ij.1 ij.2 then
    ((dfs v t h w (h * w + 1) st.1 (ij.1 : ℤ) (ij.2 : ℤ)).1,
      max st.2 (dfs v t h w (h * w + 1) st.1 (ij.1 : ℤ) (ij.2 : ℤ)).2)
  else st

/-- Embedding of `calculateLCC`: scan all cells in row-major order and
return the maximal component size found. -/
def calculateLCC (v : ℕ → ℕ → ℚ) (t : ℚ) (h w : ℕ) : ℕ :=
  ((cellsList h w).foldl (lccStep v t h w) (∅, 0)).2

/-- The in-bounds cells whose value exceeds the threshold, as integer
coordinates. -/
def affectedZ (v : ℕ → ℕ → ℚ) (t : ℚ) (h w : ℕ) : Finset (ℤ × ℤ) :=
  (((Finset.range h) ×ˢ (Finset.range w)).filter fun p => t < v p.1 p.2).image
    fun p => ((p.1 : ℤ), (p.2 : ℤ))

/-- Invariant carried through the scanning loop of `calculateLCC`. -/
def lccInv (v : ℕ → ℕ → ℚ) (t : ℚ) (h w : ℕ)
    (st : Finset (ℤ × ℤ) × ℕ) : Prop :=
  st.1 ⊆ affectedZ v t h w ∧ st.2 ≤ affectedPixels v h w t ∧
    (st.1.Nonempty → 1 ≤ st.2)

lemma mem_cellsList {h w : ℕ} {p : ℕ × ℕ} :
    p ∈ cellsList h w ↔ p.1 < h ∧ p.2 < w := by
  cases p with
  | mk i j =>
    simp [cellsList, List.mem_flatMap, List.mem_map, List.mem_range]

lemma foldl_min_le_init (l : List ℚ) (a : ℚ) : l.foldl min a ≤ a := by
  induction l generalizing a with
  | nil => simp
  | cons x xs ih =>
    calc (x :: xs).foldl min a = xs.foldl min (min a x) := rfl
    _ ≤ min a x := ih _
    _ ≤ a := min_le_left _ _

lemma foldl_min_le_mem {l : List ℚ} {x : ℚ} (hx : x ∈ l) (a : ℚ) :
    l.foldl min a ≤ x := by
  induction l generalizing a with
  | nil => simp at hx
  | cons y ys ih =>
    rcases List.mem_cons.mp hx with h | h
    · subst h
      calc (x :: ys).foldl min a = ys.foldl min (min a x) := rfl
      _ ≤ min a x := foldl_min_le_init _ _
      _ ≤ x := min_le_right _ _
    · exact ih h _

lemma le_foldl_max_init (l : List ℚ) (a : ℚ) : a ≤ l.foldl max a := by
  induction l generalizing a with
  | nil => simp
  | cons x xs ih =>
    calc a ≤ max a x := le_max_left _ _
    _ ≤ xs.foldl max (max a x) := ih _
    _ = (x :: xs).foldl max a := rfl

lemma le_foldl_max_mem {l : List ℚ} {x : ℚ} (hx : x ∈ l) (a : ℚ) :
    x ≤ l.foldl max a := by
  induction l generalizing a with
  | nil => simp at hx
  | cons y ys ih =>
    rcases List.mem_cons.mp hx with h | h
    · subst h
      calc x ≤ max a x := le_max_right _ _
      _ ≤ ys.foldl max (max a x) := le_foldl_max_init _ _
      _ = (x :: ys).foldl max a := rfl
    · exact ih h _

lemma minVal_le {v : ℕ → ℕ → ℚ} {h w i j : ℕ} (hi : i < h) (hj : j < w) :
    minVal v h w ≤ v i j := by
  apply foldl_min_le_mem
  exact List.mem_map.mpr ⟨(i, j), mem_cellsList.mpr ⟨hi, hj⟩, rfl⟩

lemma le_maxVal {v : ℕ → ℕ → ℚ} {h w i j : ℕ} (hi : i < h) (hj : j < w) :
    v i j ≤ maxVal v h w := by
  apply le_foldl_max_mem
  exact List.mem_map.mpr ⟨(i, j), mem_cellsList.mpr ⟨hi, hj⟩, rfl⟩

lemma minVal_le_maxVal {v : ℕ → ℕ → ℚ} {h w : ℕ} (hh : 0 < h) (hw : 0 < w) :
    minVal v h w ≤ maxVal v h w :=
  le_trans (minVal_le hh hw) (le_maxVal hh hw)

lemma foldl_min_const {l : List ℚ} {cst : ℚ} (hl : ∀ x ∈ l, x = cst) :
    l.foldl min cst = cst := by
  induction l with
  | nil => rfl
  | cons y ys ih =>
    have hy : y = cst := hl y (List.mem_cons_self _ _)
    have : (y :: ys).foldl min cst = ys.foldl min (min cst y) := rfl
    rw [this, hy, min_self]
    exact ih fun x hx => hl x (List.mem_cons_of_mem _ hx)

lemma foldl_max_const {l : List ℚ} {cst : ℚ} (hl : ∀ x ∈ l, x = cst) :
    l.foldl max cst = cst := by
  induction l with
  | nil => rfl
  | cons y ys ih =>
    have hy : y = cst := hl y (List.mem_cons_self _ _)
    have : (y :: ys).foldl max cst = ys.foldl max (max cst y) := rfl
    rw [this, hy, max_self]
    exact ih fun x hx => hl x (List.mem_cons_of_mem _ hx)

/-- Claim C1: every value of the normalized heatmap lies in `[0,1]`, and on
a raw map that is constant over its `h × w` extent (the all-zero map
included) the Normalizer returns the all-zero map of the same shape — the
degenerate range is replaced by `1`, so no division by zero occurs. -/
theorem normalizeHeatmap_bounds_and_const (v : ℕ → ℕ → ℚ) (h w : ℕ)
    (hh : 0 < h) (hw : 0 < w) :
    (∀ i < h, ∀ j < w,
        0 ≤ normalizeHeatmap v h w i j ∧ normalizeHeatmap v h w i j ≤ 1) ∧
    (∀ cst : ℚ, (∀ i < h, ∀ j < w, v i j = cst) →
        ∀ i < h, ∀ j < w, normalizeHeatmap v h w i j = 0) := by
  constructor
  · intro i hi j hj
    have hlo : minVal v h w ≤ v i j := minVal_le hi hj
    have hhi : v i j ≤ maxVal v h w := le_maxVal hi hj
    by_cases hr : maxVal v h w - minVal v h w = 0
    · have hvij : v i j = minVal v h w := le_antisymm (by linarith) hlo
      constructor
      · simp [normalizeHeatmap, hr, hvij]
      · simp [normalizeHeatmap, hr, hvij]
    · have hrpos : 0 < maxVal v h w - minVal v h w :=
        lt_of_le_of_ne (by linarith [minVal_le_maxVal (v := v) hh hw]) (Ne.symm hr)
      constructor
      · simp only [normalizeHeatmap, if_neg hr]
        exact div_nonneg (by linarith) (le_of_lt hrpos)
      · simp only [normalizeHeatmap, if_neg hr]
        rw [div_le_one hrpos]
        linarith
  · intro cst hcst i hi j hj
    have hmem : ∀ x ∈ (cellsList h w).map fun p => v p.1 p.2, x = cst := by
      intro x hx
      rcases List.mem_map.mp hx with ⟨p, hp, hpx⟩
      rcases mem_cellsList.mp hp with ⟨h1, h2⟩
      rw [← hpx]
      exact hcst _ h1 _ h2
    have h00 : v 0 0 = cst := hcst 0 hh 0 hw
    have hmin : minVal v h w = cst := by
      rw [minVal, h00]; exact foldl_min_const hmem
    have hmax : maxVal v h w = cst := by
      rw [maxVal, h00]; exact foldl_max_const hmem
    simp [normalizeHeatmap, hmin, hmax, hcst i hi j hj]

/-- Concrete instantiation of the C1 theorem on the constant 3 map of
shape 2 × 2. -/
theorem normalizeHeatmap_bounds_and_const_witness :
    0 < 2 ∧ 0 < 2 ∧
    ((∀ i < 2, ∀ j < 2,
        0 ≤ normalizeHeatmap (fun _ _ => (3 : ℚ)) 2 2 i j ∧
          normalizeHeatmap (fun _ _ => (3 : ℚ)) 2 2 i j ≤ 1) ∧
    (∀ cst : ℚ, (∀ i < 2, ∀ j < 2, (fun _ _ => (3 : ℚ)) i j = cst) →
        ∀ i < 2, ∀ j < 2, normalizeHeatmap (fun _ _ => (3 : ℚ)) 2 2 i j = 0)) :=
  ⟨by decide, by decide,
    normalizeHeatmap_bounds_and_const (fun _ _ => (3 : ℚ)) 2 2
      (by decide) (by decide)⟩

lemma totalIntensityLR_nonneg {v : ℕ → ℕ → ℚ} {h w : ℕ}
    (hv : ∀ i < h, ∀ j < w, 0 ≤ v i j) : 0 ≤ totalIntensityLR v h w := by
  apply Finset.sum_nonneg
  intro i hi
  apply Finset.sum_nonneg
  intro j hj
  rw [Finset.mem_range] at hi hj
  have hjw : j < w := by omega
  exact le_trans (hv i hi j hjw) (le_max_left _ _)

lemma totalIntensityTB_nonneg {v : ℕ → ℕ → ℚ} {h w : ℕ}
    (hv : ∀ i < h, ∀ j < w, 0 ≤ v i j) : 0 ≤ totalIntensityTB v h w := by
  apply Finset.sum_nonneg
  intro i hi
  apply Finset.sum_nonneg
  intro j hj
  rw [Finset.mem_range] at hi hj
  have hih : i < h := by omega
  exact le_trans (hv i hih j hj) (le_max_left _ _)

lemma symLRSpec_eq (v : ℕ → ℕ → ℚ) (h w : ℕ) :
    symLRSpec v h w =
      if totalIntensityLR v h w = 0 then 1
      else max 0 (1 - totalDiffLR v h w / totalIntensityLR v h w) := rfl

lemma symTBSpec_eq (v : ℕ → ℕ → ℚ) (h w : ℕ) :
    symTBSpec v h w =
      if totalIntensityTB v h w = 0 then 1
      else max 0 (1 - totalDiffTB v h w / totalIntensityTB v h w) := rfl

/-- Claim C4: on heatmaps (non-negative values over the grid), the two
symmetry functions compute exactly the spec's formulas: the score is
`max(0, 1 − Σdiff/Σmax)` with the `Σmax = 0` case defined as `1`. -/
theorem symmetry_matches_spec (v : ℕ → ℕ → ℚ) (h w : ℕ)
    (hv : ∀ i < h, ∀ j < w, 0 ≤ v i j) :
    calculateLeftRightSymmetry v h w = symLRSpec v h w ∧
    calculateTopBottomSymmetry v h w = symTBSpec v h w := by
  constructor
  · have hnn := totalIntensityLR_nonneg hv
    rw [calculateLeftRightSymmetry, symLRSpec_eq]
    by_cases hz : totalIntensityLR v h w = 0
    · rw [if_neg (by rw [hz]; exact lt_irrefl 0), if_pos hz]
    · have hpos : 0 < totalIntensityLR v h w := lt_of_le_of_ne hnn (Ne.symm hz)
      rw [if_pos hpos, if_neg hz]
  · have hnn := totalIntensityTB_nonneg hv
    rw [calculateTopBottomSymmetry, symTBSpec_eq]
    by_cases hz : totalIntensityTB v h w = 0
    · rw [if_neg (by rw [hz]; exact lt_irrefl 0), if_pos hz]
    · have hpos : 0 < totalIntensityTB v h w := lt_of_le_of_ne hnn (Ne.symm hz)
      rw [if_pos hpos, if_neg hz]

/-- Concrete instantiation of the C4 theorem on the map `v i j = i·j` of
shape 2 × 3. -/
theorem symmetry_matches_spec_witness :
    (∀ i : ℕ, i < 2 → ∀ j : ℕ, j < 3 → 0 ≤ ((i : ℚ) * (j : ℚ))) ∧
    (calculateLeftRightSymmetry (fun i j => (i : ℚ) * (j : ℚ)) 2 3 =
        symLRSpec (fun i j => (i : ℚ) * (j : ℚ)) 2 3 ∧
      calculateTopBottomSymmetry (fun i j => (i : ℚ) * (j : ℚ)) 2 3 =
        symTBSpec (fun i j => (i : ℚ) * (j : ℚ)) 2 3) :=
  ⟨fun i _ j _ => mul_nonneg (Nat.cast_nonneg i) (Nat.cast_nonneg j),
    symmetry_matches_spec (fun i j => (i : ℚ) * (j : ℚ)) 2 3
      (fun i _ j _ => mul_nonneg (Nat.cast_nonneg i) (Nat.cast_nonneg j))⟩

/-- Claim C10: with an odd number `2m+1` of columns, the left-right
symmetry loop (`j < floor(width/2)`) never reads the center column `m`,
so two heatmaps differing only there score identically; the top-bottom
loop likewise never reads the center row; and a heatmap whose nonzero
intensity lies entirely in the center column has `symLR = 1`. -/
theorem symmetry_ignores_center (v1 v2 v : ℕ → ℕ → ℚ) (hgt wid m : ℕ) :
    ((∀ i j, j ≠ m → v1 i j = v2 i j) →
      calculateLeftRightSymmetry v1 hgt (2 * m + 1) =
        calculateLeftRightSymmetry v2 hgt (2 * m + 1)) ∧
    ((∀ i j, i ≠ m → v1 i j = v2 i j) →
      calculateTopBottomSymmetry v1 (2 * m + 1) wid =
        calculateTopBottomSymmetry v2 (2 * m + 1) wid) ∧
    ((∀ i j, j < 2 * m + 1 → j ≠ m → v i j = 0) →
      calculateLeftRightSymmetry v hgt (2 * m + 1) = 1) := by
  refine ⟨fun hdiff => ?_, fun hdiff => ?_, fun hzero => ?_⟩
  · have hcong : ∀ f : ℚ → ℚ → ℚ,
        (∑ i ∈ Finset.range hgt, ∑ j ∈ Finset.range ((2 * m + 1) / 2),
          f (v1 i j) (v1 i (2 * m + 1 - 1 - j))) =
        (∑ i ∈ Finset.range hgt, ∑ j ∈ Finset.range ((2 * m + 1) / 2),
          f (v2 i j) (v2 i (2 * m + 1 - 1 - j))) := by
      intro f
      refine Finset.sum_congr rfl fun i _ => Finset.sum_congr rfl fun j hj => ?_
      rw [Finset.mem_range] at hj
      have hjm : j ≠ m := by omega
      have hmir : 2 * m + 1 - 1 - j ≠ m := by omega
      rw [hdiff i j hjm, hdiff i _ hmir]
    have hd : totalDiffLR v1 hgt (2 * m + 1) = totalDiffLR v2 hgt (2 * m + 1) :=
      hcong fun a b => |a - b|
    have hs : totalIntensityLR v1 hgt (2 * m + 1) =
        totalIntensityLR v2 hgt (2 * m + 1) := hcong fun a b => max a b
    rw [calculateLeftRightSymmetry, calculateLeftRightSymmetry, hd, hs]
  · have hcong : ∀ f : ℚ → ℚ → ℚ,
        (∑ i ∈ Finset.range ((2 * m + 1) / 2), ∑ j ∈ Finset.range wid,
          f (v1 i j) (v1 (2 * m + 1 - 1 - i) j)) =
        (∑ i ∈ Finset.range ((2 * m + 1) / 2), ∑ j ∈ Finset.range wid,
          f (v2 i j) (v2 (2 * m + 1 - 1 - i) j)) := by
      intro f
      refine Finset.sum_congr rfl fun i hi => Finset.sum_congr rfl fun j _ => ?_
      rw [Finset.mem_range] at hi
      have him : i ≠ m := by omega
      have hmir : 2 * m + 1 - 1 - i ≠ m := by omega
      rw [hdiff i j him, hdiff _ j hmir]
    have hd : totalDiffTB v1 (2 * m + 1) wid = totalDiffTB v2 (2 * m + 1) wid :=
      hcong fun a b => |a - b|
    have hs : totalIntensityTB v1 (2 * m + 1) wid =
        totalIntensityTB v2 (2 * m + 1) wid := hcong fun a b => max a b
    rw [calculateTopBottomSymmetry, calculateTopBottomSymmetry, hd, hs]
  · have hzs : ∀ f : ℚ → ℚ → ℚ, f 0 0 = 0 →
        (∑ i ∈ Finset.range hgt, ∑ j ∈ Finset.range ((2 * m + 1) / 2),
          f (v i j) (v i (2 * m + 1 - 1 - j))) = 0 := by
      intro f hf
      refine Finset.sum_eq_zero fun i _ => Finset.sum_eq_zero fun j hj => ?_
      rw [Finset.mem_range] at hj
      have h1 : v i j = 0 := hzero i j (by omega) (by omega)
      have h2 : v i (2 * m + 1 - 1 - j) = 0 := hzero i _ (by omega) (by omega)
      rw [h1, h2, hf]
    have hs : totalIntensityLR v hgt (2 * m + 1) = 0 :=
      hzs (fun a b => max a b) (max_self 0)
    rw [calculateLeftRightSymmetry, hs]
    simp

/-- Concrete instantiation of the C10 theorem: 3-column maps differing
only in column 1 score the same `symLR`, 3-row maps differing only in
row 1 score the same `symTB`, and a map supported on the center column
has `symLR = 1`. -/
theorem symmetry_ignores_center_witness :
    calculateLeftRightSymmetry
        (fun i j => if j = 1 then (5 : ℚ) else (i : ℚ) + (j : ℚ)) 2 3 =
      calculateLeftRightSymmetry
        (fun i j => if j = 1 then (7 : ℚ) else (i : ℚ) + (j : ℚ)) 2 3 ∧
    calculateTopBottomSymmetry
        (fun i j => if i = 1 then (5 : ℚ) else (i : ℚ) + (j : ℚ)) 3 2 =
      calculateTopBottomSymmetry
        (fun i j => if i = 1 then (7 : ℚ) else (i : ℚ) + (j : ℚ)) 3 2 ∧
    calculateLeftRightSymmetry
        (fun i j => if j = 1 then (2 : ℚ) else 0) 2 3 = 1 :=
  ⟨(symmetry_ignores_center
      (fun i j => if j = 1 then (5 : ℚ) else (i : ℚ) + (j : ℚ))
      (fun i j => if j = 1 then (7 : ℚ) else (i : ℚ) + (j : ℚ))
      (fun _ _ => 0) 2 0 1).1 (fun i j hj => by simp [hj]),
   (symmetry_ignores_center
      (fun i j => if i = 1 then (5 : ℚ) else (i : ℚ) + (j : ℚ))
      (fun i j => if i = 1 then (7 : ℚ) else (i : ℚ) + (j : ℚ))
      (fun _ _ => 0) 0 2 1).2.1 (fun i j hi => by simp [hi]),
   (symmetry_ignores_center (fun _ _ => 0) (fun _ _ => 0)
      (fun i j => if j = 1 then (2 : ℚ) else 0) 2 0 1).2.2
      (fun i j _ hj => by simp [hj])⟩

/-- Claim C3: lowering the threshold never lowers the percent-affected
value: for `t1 ≤ t2`, `percentAffected` at `t2` is at most its value
at `t1`. -/
theorem percentAffected_antitone (v : ℕ → ℕ → ℚ) (h w : ℕ) (t1 t2 : ℚ)
    (h12 : t1 ≤ t2) :
    percentAffected v h w t2 ≤ percentAffected v h w t1 := by
  have hcard : affectedPixels v h w t2 ≤ affectedPixels v h w t1 := by
    apply Finset.card_le_card
    intro p hp
    rw [Finset.mem_filter] at hp ⊢
    exact ⟨hp.1, lt_of_le_of_lt h12 hp.2⟩
  by_cases hhw : h * w = 0
  · simp [percentAffected, hhw]
  · have hpos : (0 : ℚ) < ((h * w : ℕ) : ℚ) := by
      exact_mod_cast Nat.pos_of_ne_zero hhw
    have hc : ((affectedPixels v h w t2 : ℚ)) ≤ (affectedPixels v h w t1 : ℚ) :=
      Nat.cast_le.mpr hcard
    apply mul_le_mul_of_nonneg_right _ (by norm_num : (0:ℚ) ≤ 100)
    exact (div_le_div_right hpos).mpr hc

/-- Concrete instantiation of the C3 theorem on the map `v i j = (i+j)/4`
of shape 2 × 2 with thresholds 1/4 ≤ 1/2. -/
theorem percentAffected_antitone_witness :
    (1 / 4 : ℚ) ≤ 1 / 2 ∧
    percentAffected (fun i j => ((i : ℚ) + (j : ℚ)) / 4) 2 2 (1 / 2) ≤
      percentAffected (fun i j => ((i : ℚ) + (j : ℚ)) / 4) 2 2 (1 / 4) :=
  ⟨by norm_num,
    percentAffected_antitone (fun i j => ((i : ℚ) + (j : ℚ)) / 4) 2 2
      (1 / 4) (1 / 2) (by norm_num)⟩

lemma sumIntensity_nonneg {v : ℕ → ℕ → ℚ} {h w : ℕ}
    (hv : ∀ i < h, ∀ j < w, 0 ≤ v i j) : 0 ≤ sumIntensity v h w := by
  apply Finset.sum_nonneg
  intro i hi
  apply Finset.sum_nonneg
  intro j hj
  rw [Finset.mem_range] at hi hj
  exact hv i hi j hj

/-- Claim C8: on a non-empty heatmap with non-negative values the centroid
lies within `[0, cols) × [0, rows)`, and when the total intensity is zero
it is the geometric center `(cols/2, rows/2)`. -/
theorem centroid_in_bounds (v : ℕ → ℕ → ℚ) (h w : ℕ)
    (hh : 0 < h) (hw : 0 < w) (hv : ∀ i < h, ∀ j < w, 0 ≤ v i j) :
    (0 ≤ (centroid v h w).1 ∧ (centroid v h w).1 < (w : ℚ) ∧
      0 ≤ (centroid v h w).2 ∧ (centroid v h w).2 < (h : ℚ)) ∧
    (sumIntensity v h w = 0 → centroid v h w = ((w : ℚ) / 2, (h : ℚ) / 2)) := by
  have hwQ : (0 : ℚ) < (w : ℚ) := by exact_mod_cast hw
  have hhQ : (0 : ℚ) < (h : ℚ) := by exact_mod_cast hh
  constructor
  · by_cases hS : 0 < sumIntensity v h w
    · have hx0 : 0 ≤ sumX v h w := by
        apply Finset.sum_nonneg; intro i hi
        apply Finset.sum_nonneg; intro j hj
        rw [Finset.mem_range] at hi hj
        exact mul_nonneg (Nat.cast_nonneg j) (hv i hi j hj)
      have hy0 : 0 ≤ sumY v h w := by
        apply Finset.sum_nonneg; intro i hi
        apply Finset.sum_nonneg; intro j hj
        rw [Finset.mem_range] at hi hj
        exact mul_nonneg (Nat.cast_nonneg i) (hv i hi j hj)
      have hxlt : sumX v h w < (w : ℚ) * sumIntensity v h w := by
        have hle : sumX v h w ≤ ((w : ℚ) - 1) * sumIntensity v h w := by
          rw [sumIntensity, Finset.mul_sum]
          apply Finset.sum_le_sum
          intro i hi
          rw [Finset.mul_sum]
          apply Finset.sum_le_sum
          intro j hj
          rw [Finset.mem_range] at hi hj
          have hjw : (j : ℚ) ≤ (w : ℚ) - 1 := by
            have : (j : ℚ) + 1 ≤ (w : ℚ) := by exact_mod_cast hj
            linarith
          exact mul_le_mul_of_nonneg_right hjw (hv i hi j hj)
        have : ((w : ℚ) - 1) * sumIntensity v h w < (w : ℚ) * sumIntensity v h w :=
          mul_lt_mul_of_pos_right (by linarith) hS
        linarith
      have hylt : sumY v h w < (h : ℚ) * sumIntensity v h w := by
        have hle : sumY v h w ≤ ((h : ℚ) - 1) * sumIntensity v h w := by
          rw [sumIntensity, Finset.mul_sum]
          apply Finset.sum_le_sum
          intro i hi
          rw [Finset.mul_sum]
          apply Finset.sum_le_sum
          intro j hj
          rw [Finset.mem_range] at hi hj
          have hih : (i : ℚ) ≤ (h : ℚ) - 1 := by
            have : (i : ℚ) + 1 ≤ (h : ℚ) := by exact_mod_cast hi
            linarith
          exact mul_le_mul_of_nonneg_right hih (hv i hi j hj)
        have : ((h : ℚ) - 1) * sumIntensity v h w < (h : ℚ) * sumIntensity v h w :=
          mul_lt_mul_of_pos_right (by linarith) hS
        linarith
      refine ⟨?_, ?_, ?_, ?_⟩
      · simp only [centroid, if_pos hS]
        exact div_nonneg hx0 (le_of_lt hS)
      · simp only [centroid, if_pos hS]
        rw [div_lt_iff hS]
        linarith
      · simp only [centroid, if_pos hS]
        exact div_nonneg hy0 (le_of_lt hS)
      · simp only [centroid, if_pos hS]
        rw [div_lt_iff hS]
        linarith
    · refine ⟨?_, ?_, ?_, ?_⟩ <;> simp only [centroid, if_neg hS]
      · positivity
      · exact half_lt_self hwQ
      · positivity
      · exact half_lt_self hhQ
  · intro hS0
    have : ¬ 0 < sumIntensity v h w := by rw [hS0]; exact lt_irrefl 0
    simp [centroid, this]

/-- Concrete instantiation of the C8 theorem on the constant 1 map of
shape 2 × 2. -/
theorem centroid_in_bounds_witness :
    0 < 2 ∧ 0 < 2 ∧
    ((0 ≤ (centroid (fun _ _ => (1 : ℚ)) 2 2).1 ∧
        (centroid (fun _ _ => (1 : ℚ)) 2 2).1 < ((2 : ℕ) : ℚ) ∧
        0 ≤ (centroid (fun _ _ => (1 : ℚ)) 2 2).2 ∧
        (centroid (fun _ _ => (1 : ℚ)) 2 2).2 < ((2 : ℕ) : ℚ)) ∧
      (sumIntensity (fun _ _ => (1 : ℚ)) 2 2 = 0 →
        centroid (fun _ _ => (1 : ℚ)) 2 2 = (((2 : ℕ) : ℚ) / 2, ((2 : ℕ) : ℚ) / 2))) :=
  ⟨by decide, by decide,
    centroid_in_bounds (fun _ _ => (1 : ℚ)) 2 2 (by decide) (by decide)
      (fun _ _ _ _ => zero_le_one)⟩

/-- Claim C2: the tensor pipeline of `computeGradCAM` (mean over axes
0,1,2, broadcast multiply, channel sum, ReLU) computes exactly the
Grad-CAM formula `raw[i,j] = max(0, Σ_k weight[k]·A[i,j,k])` with
`weight[k]` the spatial mean of the gradients of channel `k`. -/
theorem camRawMap_matches_gradcam_formula (A G : ℕ → ℕ → ℕ → ℕ → ℚ)
    (h w c i j : ℕ) :
    camRawMap A G h w c i j =
      camRawMapSpec (fun p q k => A 0 p q k) (fun p q k => G 0 p q k)
        h w c i j := by
  rw [camRawMap, camRawMapSpec]
  congr 1
  apply Finset.sum_congr rfl
  intro k _
  rw [weightedConvOutputs, pooledGrads, Finset.sum_range_one, Nat.one_mul]
  ring

/-- Counterexample to claim C6 as stated: a model whose only layer is a
2×2-output `MaxPooling2D` layer exposes a feature layer with spatial
extent greater than 1×1, yet the computation fails, because the source
tests the class-name string `'Conv2D'` and not the spatial extent. -/
theorem camFailsIffNoSpatialLayer_false : ¬ camFailsIffNoSpatialLayer := by
  intro hcl
  have h := (hcl [⟨"MaxPooling2D", "pool1", 2, 2⟩]).mp rfl
  exact h ⟨⟨"MaxPooling2D", "pool1", 2, 2⟩, by simp, by norm_num⟩

lemma getLastConvLayerName_eq_none_iff (layers : List LayerInfo) :
    getLastConvLayerName layers = none ↔
      ∀ l ∈ layers, l.className ≠ "Conv2D" := by
  induction layers with
  | nil => simp [getLastConvLayerName]
  | cons x ls ih =>
    rw [getLastConvLayerName]
    cases hrec : getLastConvLayerName ls with
    | some n =>
      simp only [hrec]
      constructor
      · intro hfalse; exact absurd hfalse (by simp)
      · intro hall
        exfalso
        have : getLastConvLayerName ls = none :=
          ih.mpr fun l hl => hall l (List.mem_cons_of_mem _ hl)
        rw [this] at hrec; exact Option.noConfusion hrec
    | none =>
      simp only [hrec]
      by_cases hx : x.className = "Conv2D"
      · rw [if_pos hx]
        constructor
        · intro hfalse; exact absurd hfalse (by simp)
        · intro hall; exact absurd hx (hall x (List.mem_cons_self _ _))
      · rw [if_neg hx]
        simp only [true_iff, List.mem_cons]
        rintro l (rfl | hl)
        · exact hx
        · exact (ih.mp hrec) l hl

/-- Claim C6 amended: the CAM computation fails — by throwing an untyped
`Error` whose message is `'No convolutional layer found in model'`, not a
typed `ModelIncompatible` value — exactly when the model's layer list
contains no layer whose class name is `'Conv2D'`; the spatial extent of
the layers plays no role. -/
theorem computeGradCAM_fails_iff_no_conv_layer (layers : List LayerInfo) :
    computeGradCAMLayerCheck layers =
        Except.error "No convolutional layer found in model" ↔
      ∀ l ∈ layers, l.className ≠ "Conv2D" := by
  rw [← getLastConvLayerName_eq_none_iff]
  rw [computeGradCAMLayerCheck]
  cases hrec : getLastConvLayerName layers with
  | none => simp
  | some n => simp

lemma getD_row_length {g : List (List Bool)} {rows cols r0 : ℕ}
    (hg : gridShape g rows cols) (hr0 : r0 < rows) :
    ((g[r0]?).getD []).length = cols := by
  have hlt : r0 < g.length := hg.1 ▸ hr0
  rw [List.getElem?_eq_getElem hlt]
  exact hg.2 _ (List.getElem_mem hlt)

lemma gridShape_setCell {g : List (List Bool)} {rows cols r0 c0 : ℕ}
    (hg : gridShape g rows cols) (hr0 : r0 < rows) :
    gridShape (setCell g r0 c0) rows cols := by
  refine ⟨by rw [setCell, List.length_set]; exact hg.1, fun row hrow => ?_⟩
  rcases List.mem_or_eq_of_mem_set hrow with h | h
  · exact hg.2 _ h
  · rw [h, List.length_set]
    exact getD_row_length hg hr0

lemma getCell_setCell {g : List (List Bool)} {rows cols r0 c0 : ℕ}
    (hg : gridShape g rows cols) (hr0 : r0 < rows) (hc0 : c0 < cols)
    (r c : ℕ) :
    (getCell (setCell g r0 c0) r c = true ↔
      getCell g r c = true ∨ (r = r0 ∧ c = c0)) := by
  have hlen : r0 < g.length := hg.1 ▸ hr0
  have hrowlen : ((g[r0]?).getD []).length = cols := getD_row_length hg hr0
  by_cases hrr : r = r0
  · subst hrr
    rw [getCell, setCell,
      List.getElem?_set_self (by simpa using hlen)]
    simp only [Option.getD_some]
    by_cases hcc : c = c0
    · subst hcc
      rw [List.getElem?_set_self (by rw [hrowlen]; exact hc0)]
      simp
    · rw [List.getElem?_set_ne (Ne.symm hcc), ← getCell]
      simp [hcc]
  · rw [getCell, setCell,
      List.getElem?_set_ne fun h => hrr h.symm, ← getCell]
    simp [hrr]

lemma gridShape_markPoint {g : List (List Bool)} {width height cellSize : ℚ}
    (hg : gridShape g (gridRowsZ height cellSize).toNat
      (gridColsZ width cellSize).toNat) (p : ℚ × ℚ) :
    gridShape (markPoint width height cellSize g p)
      (gridRowsZ height cellSize).toNat (gridColsZ width cellSize).toNat := by
  rw [markPoint]
  by_cases hguard : 0 ≤ ⌊p.1 / cellSize⌋ ∧
      ⌊p.1 / cellSize⌋ < gridColsZ width cellSize ∧
      0 ≤ ⌊p.2 / cellSize⌋ ∧ ⌊p.2 / cellSize⌋ < gridRowsZ height cellSize
  · rw [if_pos hguard]
    obtain ⟨h1, h2, h3, h4⟩ := hguard
    exact gridShape_setCell hg (by omega)
  · rw [if_neg hguard]
    exact hg

lemma getCell_markPoint {g : List (List Bool)} {width height cellSize : ℚ}
    {r c : ℕ}
    (hg : gridShape g (gridRowsZ height cellSize).toNat
      (gridColsZ width cellSize).toNat)
    (hr : r < (gridRowsZ height cellSize).toNat)
    (hc : c < (gridColsZ width cellSize).toNat) (p : ℚ × ℚ) :
    (getCell (markPoint width height cellSize g p) r c = true ↔
      getCell g r c = true ∨
        (⌊p.1 / cellSize⌋ = (c : ℤ) ∧ ⌊p.2 / cellSize⌋ = (r : ℤ))) := by
  rw [markPoint]
  by_cases hguard : 0 ≤ ⌊p.1 / cellSize⌋ ∧
      ⌊p.1 / cellSize⌋ < gridColsZ width cellSize ∧
      0 ≤ ⌊p.2 / cellSize⌋ ∧ ⌊p.2 / cellSize⌋ < gridRowsZ height cellSize
  · rw [if_pos hguard]
    obtain ⟨h1, h2, h3, h4⟩ := hguard
    rw [getCell_setCell hg (by omega) (by omega) r c]
    have hiff : (r = (⌊p.2 / cellSize⌋).toNat ∧ c = (⌊p.1 / cellSize⌋).toNat) ↔
        (⌊p.1 / cellSize⌋ = (c : ℤ) ∧ ⌊p.2 / cellSize⌋ = (r : ℤ)) := by omega
    rw [hiff]
  · rw [if_neg hguard]
    constructor
    · exact Or.inl
    · rintro (h | ⟨hx, hy⟩)
      · exact h
      · exfalso
        exact hguard ⟨by omega, by omega, by omega, by omega⟩

lemma foldl_markPoint_spec (width height cellSize : ℚ)
    (ps : List (ℚ × ℚ)) :
    ∀ g, gridShape g (gridRowsZ height cellSize).toNat
        (gridColsZ width cellSize).toNat →
      gridShape (ps.foldl (markPoint width height cellSize) g)
        (gridRowsZ height cellSize).toNat (gridColsZ width cellSize).toNat ∧
      ∀ r < (gridRowsZ height cellSize).toNat,
        ∀ c < (gridColsZ width cellSize).toNat,
        (getCell (ps.foldl (markPoint width height cellSize) g) r c = true ↔
          getCell g r c = true ∨
            ∃ p ∈ ps, ⌊p.1 / cellSize⌋ = (c : ℤ) ∧
              ⌊p.2 / cellSize⌋ = (r : ℤ)) := by
  induction ps with
  | nil => intro g hg; exact ⟨hg, fun r _ c _ => by simp⟩
  | cons q qs ih =>
    intro g hg
    have hg1 := gridShape_markPoint hg q
    obtain ⟨hsh, hiff⟩ := ih (markPoint width height cellSize g q) hg1
    refine ⟨hsh, fun r hr c hc => ?_⟩
    rw [List.foldl_cons, hiff r hr c hc, getCell_markPoint hg hr hc q]
    constructor
    · rintro ((h | hq) | ⟨p, hp, hcond⟩)
      · exact Or.inl h
      · exact Or.inr ⟨q, List.mem_cons_self _ _, hq⟩
      · exact Or.inr ⟨p, List.mem_cons_of_mem _ hp, hcond⟩
    · rintro (h | ⟨p, hp, hcond⟩)
      · exact Or.inl (Or.inl h)
      · rcases List.mem_cons.mp hp with rfl | hp1
        · exact Or.inl (Or.inr hcond)
        · exact Or.inr ⟨p, hp1, hcond⟩

lemma foldl_trails_spec (width height cellSize : ℚ)
    (ts : List (List (ℚ × ℚ))) :
    ∀ g, gridShape g (gridRowsZ height cellSize).toNat
        (gridColsZ width cellSize).toNat →
      gridShape
        (ts.foldl (fun g tr => tr.foldl (markPoint width height cellSize) g) g)
        (gridRowsZ height cellSize).toNat (gridColsZ width cellSize).toNat ∧
      ∀ r < (gridRowsZ height cellSize).toNat,
        ∀ c < (gridColsZ width cellSize).toNat,
        (getCell
            (ts.foldl (fun g tr => tr.foldl (markPoint width height cellSize) g)
              g) r c = true ↔
          getCell g r c = true ∨
            ∃ tr ∈ ts, ∃ p ∈ tr, ⌊p.1 / cellSize⌋ = (c : ℤ) ∧
              ⌊p.2 / cellSize⌋ = (r : ℤ)) := by
  induction ts with
  | nil => intro g hg; exact ⟨hg, fun r _ c _ => by simp⟩
  | cons q qs ih =>
    intro g hg
    obtain ⟨hsh0, hiff0⟩ := foldl_markPoint_spec width height cellSize q g hg
    obtain ⟨hsh, hiff⟩ :=
      ih (q.foldl (markPoint width height cellSize) g) hsh0
    refine ⟨hsh, fun r hr c hc => ?_⟩
    rw [List.foldl_cons, hiff r hr c hc, hiff0 r hr c hc]
    constructor
    · rintro ((h | ⟨p, hp, hcond⟩) | ⟨tr, htr, p, hp, hcond⟩)
      · exact Or.inl h
      · exact Or.inr ⟨q, List.mem_cons_self _ _, p, hp, hcond⟩
      · exact Or.inr ⟨tr, List.mem_cons_of_mem _ htr, p, hp, hcond⟩
    · rintro (h | ⟨tr, htr, p, hp, hcond⟩)
      · exact Or.inl (Or.inl h)
      · rcases List.mem_cons.mp htr with rfl | htr1
        · exact Or.inl (Or.inr ⟨p, hp, hcond⟩)
        · exact Or.inr ⟨tr, htr1, p, hp, hcond⟩

lemma gridShape_replicate (rows cols : ℕ) :
    gridShape (List.replicate rows (List.replicate cols false)) rows cols := by
  refine ⟨List.length_replicate .., fun row hrow => ?_⟩
  rw [List.eq_of_mem_replicate hrow]
  exact List.length_replicate ..

lemma getCell_replicate_false (rows cols r c : ℕ) :
    getCell (List.replicate rows (List.replicate cols false)) r c = false := by
  rw [getCell, List.getElem?_replicate]
  by_cases hr : r < rows
  · rw [if_pos hr]
    simp only [Option.getD_some]
    rw [List.getElem?_replicate]
    by_cases hc : c < cols
    · rw [if_pos hc]; rfl
    · rw [if_neg hc]; rfl
  · rw [if_neg hr]; rfl

/-- Claim C7: with cell size `> 0`, the encoder produces a grid of shape
`⌊height/cellSize⌋ × ⌊width/cellSize⌋`; a cell `(r, c)` of the grid is set
iff some trail point maps to it by `⌊x/cellSize⌋ = c`, `⌊y/cellSize⌋ = r`;
any point outside `[0,width) × [0,height)` leaves the grid unchanged
(ignored, not clamped); and the empty trail list yields the all-`false`
grid of that shape. -/
theorem encodeTrails_spec (trails : List (List (ℚ × ℚ)))
    (width height cellSize : ℚ) (hcs : 0 < cellSize) :
    gridShape (encodeTrails trails width height cellSize)
      (gridRowsZ height cellSize).toNat (gridColsZ width cellSize).toNat ∧
    (∀ r < (gridRowsZ height cellSize).toNat,
      ∀ c < (gridColsZ width cellSize).toNat,
      (getCell (encodeTrails trails width height cellSize) r c = true ↔
        ∃ tr ∈ trails, ∃ p ∈ tr, ⌊p.1 / cellSize⌋ = (c : ℤ) ∧
          ⌊p.2 / cellSize⌋ = (r : ℤ))) ∧
    (∀ (g : List (List Bool)) (p : ℚ × ℚ),
      p.1 < 0 ∨ width ≤ p.1 ∨ p.2 < 0 ∨ height ≤ p.2 →
      markPoint width height cellSize g p = g) ∧
    encodeTrails [] width height cellSize =
      List.replicate (gridRowsZ height cellSize).toNat
        (List.replicate (gridColsZ width cellSize).toNat false) := by
  obtain ⟨hsh, hiff⟩ := foldl_trails_spec width height cellSize trails _
    (gridShape_replicate _ _)
  refine ⟨hsh, fun r hr c hc => ?_, fun g p hp => ?_, rfl⟩
  · rw [encodeTrails, hiff r hr c hc, getCell_replicate_false]
    simp
  · rw [markPoint]
    rcases hp with h | h | h | h
    · have hneg : ⌊p.1 / cellSize⌋ < 0 := by
        rw [Int.floor_lt]
        push_cast
        exact div_neg_of_neg_of_pos h hcs
      rw [if_neg]
      rintro ⟨h1, -, -, -⟩
      omega
    · have hge : gridColsZ width cellSize ≤ ⌊p.1 / cellSize⌋ := by
        rw [gridColsZ]
        exact Int.floor_le_floor (div_le_div_of_nonneg_right h hcs.le)
      rw [if_neg]
      rintro ⟨-, h2, -, -⟩
      omega
    · have hneg : ⌊p.2 / cellSize⌋ < 0 := by
        rw [Int.floor_lt]
        push_cast
        exact div_neg_of_neg_of_pos h hcs
      rw [if_neg]
      rintro ⟨-, -, h3, -⟩
      omega
    · have hge : gridRowsZ height cellSize ≤ ⌊p.2 / cellSize⌋ := by
        rw [gridRowsZ]
        exact Int.floor_le_floor (div_le_div_of_nonneg_right h hcs.le)
      rw [if_neg]
      rintro ⟨-, -, -, h4⟩
      omega

/-- Concrete instantiation of the C7 theorem: one trail with the single
point `(5, 5)` on a 20 × 20 screen with cell size 10. -/
theorem encodeTrails_spec_witness :
    (0 : ℚ) < 10 ∧
    (gridShape (encodeTrails [[((5 : ℚ), (5 : ℚ))]] 20 20 10)
      (gridRowsZ 20 10).toNat (gridColsZ 20 10).toNat ∧
    (∀ r < (gridRowsZ 20 10).toNat,
      ∀ c < (gridColsZ 20 10).toNat,
      (getCell (encodeTrails [[((5 : ℚ), (5 : ℚ))]] 20 20 10) r c = true ↔
        ∃ tr ∈ [[((5 : ℚ), (5 : ℚ))]], ∃ p ∈ tr, ⌊p.1 / 10⌋ = (c : ℤ) ∧
          ⌊p.2 / 10⌋ = (r : ℤ))) ∧
    (∀ (g : List (List Bool)) (p : ℚ × ℚ),
      p.1 < 0 ∨ 20 ≤ p.1 ∨ p.2 < 0 ∨ 20 ≤ p.2 →
      markPoint 20 20 10 g p = g) ∧
    encodeTrails [] 20 20 10 =
      List.replicate (gridRowsZ 20 10).toNat
        (List.replicate (gridColsZ 20 10).toNat false)) :=
  ⟨by norm_num,
    encodeTrails_spec [[((5 : ℚ), (5 : ℚ))]] 20 20 10 (by norm_num)⟩

lemma affectedZ_card (v : ℕ → ℕ → ℚ) (t : ℚ) (h w : ℕ) :
    (affectedZ v t h w).card = affectedPixels v h w t := by
  rw [affectedZ, affectedPixels]
  apply Finset.card_image_of_injective
  intro a b hab
  rw [Prod.mk.injEq] at hab
  exact Prod.ext (by exact_mod_cast hab.1) (by exact_mod_cast hab.2)

lemma mem_affectedZ {v : ℕ → ℕ → ℚ} {t : ℚ} {h w : ℕ} {r c : ℤ} :
    ((r, c) ∈ affectedZ v t h w) ↔
      0 ≤ r ∧ r < (h : ℤ) ∧ 0 ≤ c ∧ c < (w : ℤ) ∧ t < v r.toNat c.toNat := by
  rw [affectedZ]
  simp only [Finset.mem_image, Finset.mem_filter, Finset.mem_product,
    Finset.mem_range, Prod.mk.injEq]
  constructor
  · rintro ⟨⟨i, j⟩, ⟨⟨hi, hj⟩, ht⟩, hr, hc⟩
    subst hr; subst hc
    refine ⟨by omega, by omega, by omega, by omega, ?_⟩
    simpa using ht
  · rintro ⟨h1, h2, h3, h4, ht⟩
    refine ⟨(r.toNat, c.toNat), ⟨⟨by omega, by omega⟩, ht⟩, by omega, by omega⟩

lemma dfs_spec (v : ℕ → ℕ → ℚ) (t : ℚ) (h w : ℕ) :
    ∀ (fuel : ℕ) (vis : Finset (ℤ × ℤ)) (r c : ℤ),
      vis ⊆ (dfs v t h w fuel vis r c).1 ∧
      (dfs v t h w fuel vis r c).1 ⊆ vis ∪ affectedZ v t h w ∧
      (dfs v t h w fuel vis r c).2 =
        (dfs v t h w fuel vis r c).1.card - vis.card := by
  intro fuel
  induction fuel with
  | zero =>
    intro vis r c
    exact ⟨subset_rfl, Finset.subset_union_left, by simp [dfs]⟩
  | succ fuel ih =>
    intro vis r c
    by_cases hguard : r < 0 ∨ (h : ℤ) ≤ r ∨ c < 0 ∨ (w : ℤ) ≤ c ∨
        (r, c) ∈ vis ∨ v r.toNat c.toNat ≤ t
    · simp only [dfs, if_pos hguard]
      exact ⟨subset_rfl, Finset.subset_union_left, by simp⟩
    · have hng := hguard
      push_neg at hng
      obtain ⟨hr0, hrh, hc0, hcw, hnv, hvt⟩ := hng
      have hmem : (r, c) ∈ affectedZ v t h w :=
        mem_affectedZ.mpr ⟨hr0, hrh, hc0, hcw, hvt⟩
      have hne : (r, c) ∉ vis := hnv
      simp only [dfs, if_neg hguard]
      obtain ⟨ha1, hb1, hc1⟩ := ih (insert (r, c) vis) (r + 1) c
      obtain ⟨ha2, hb2, hc2⟩ :=
        ih (dfs v t h w fuel (insert (r, c) vis) (r + 1) c).1 (r - 1) c
      obtain ⟨ha3, hb3, hc3⟩ :=
        ih (dfs v t h w fuel
          (dfs v t h w fuel (insert (r, c) vis) (r + 1) c).1 (r - 1) c).1 r
          (c + 1)
      obtain ⟨ha4, hb4, hc4⟩ :=
        ih (dfs v t h w fuel
          (dfs v t h w fuel
            (dfs v t h w fuel (insert (r, c) vis) (r + 1) c).1 (r - 1) c).1 r
          (c + 1)).1 r (c - 1)
      refine ⟨?_, ?_, ?_⟩
      · intro x hx
        exact ha4 (ha3 (ha2 (ha1 (Finset.mem_insert_of_mem hx))))
      · intro x hx
        rcases Finset.mem_union.mp (hb4 hx) with hx3 | haff
        · rcases Finset.mem_union.mp (hb3 hx3) with hx2 | haff
          · rcases Finset.mem_union.mp (hb2 hx2) with hx1 | haff
            · rcases Finset.mem_union.mp (hb1 hx1) with hx0 | haff
              · rcases Finset.mem_insert.mp hx0 with hrc | hvis
                · exact Finset.mem_union_right _ (hrc ▸ hmem)
                · exact Finset.mem_union_left _ hvis
              · exact Finset.mem_union_right _ haff
            · exact Finset.mem_union_right _ haff
          · exact Finset.mem_union_right _ haff
        · exact Finset.mem_union_right _ haff
      · have hcard0 : (insert (r, c) vis).card = vis.card + 1 :=
          Finset.card_insert_of_not_mem hne
        have hle1 : (insert (r, c) vis).card ≤
            (dfs v t h w fuel (insert (r, c) vis) (r + 1) c).1.card :=
          Finset.card_le_card ha1
        have hle2 := Finset.card_le_card ha2
        have hle3 := Finset.card_le_card ha3
        have hle4 := Finset.card_le_card ha4
        omega

lemma dfs_snd_pos (v : ℕ → ℕ → ℚ) (t : ℚ) (h w : ℕ) (fuel : ℕ)
    (vis : Finset (ℤ × ℤ)) (r c : ℤ)
    (hguard : ¬(r < 0 ∨ (h : ℤ) ≤ r ∨ c < 0 ∨ (w : ℤ) ≤ c ∨ (r, c) ∈ vis ∨
      v r.toNat c.toNat ≤ t)) :
    1 ≤ (dfs v t h w (fuel + 1) vis r c).2 := by
  simp only [dfs, if_neg hguard]
  omega

lemma lccStep_inv {v : ℕ → ℕ → ℚ} {t : ℚ} {h w : ℕ}
    {st : Finset (ℤ × ℤ) × ℕ} (hinv : lccInv v t h w st) (ij : ℕ × ℕ) :
    lccInv v t h w (lccStep v t h w st ij) := by
  rw [lccStep]
  by_cases hcond : ((ij.1 : ℤ), (ij.2 : ℤ)) ∉ st.1 ∧ t < v ij.1 ij.2
  · rw [if_pos hcond]
    obtain ⟨hsub, hsup, hcard⟩ :=
      dfs_spec v t h w (h * w + 1) st.1 (ij.1 : ℤ) (ij.2 : ℤ)
    have hsubaff : (dfs v t h w (h * w + 1) st.1 (ij.1 : ℤ) (ij.2 : ℤ)).1 ⊆
        affectedZ v t h w := by
      intro x hx
      rcases Finset.mem_union.mp (hsup hx) with hv | ha
      · exact hinv.1 hv
      · exact ha
    refine ⟨hsubaff, ?_, ?_⟩
    · apply max_le hinv.2.1
      calc (dfs v t h w (h * w + 1) st.1 (ij.1 : ℤ) (ij.2 : ℤ)).2 ≤
          (dfs v t h w (h * w + 1) st.1 (ij.1 : ℤ) (ij.2 : ℤ)).1.card := by omega
        _ ≤ (affectedZ v t h w).card := Finset.card_le_card hsubaff
        _ = affectedPixels v h w t := affectedZ_card v t h w
    · intro hne
      show 1 ≤ max st.2 (dfs v t h w (h * w + 1) st.1 (ij.1 : ℤ) (ij.2 : ℤ)).2
      rcases st.1.eq_empty_or_nonempty with hst | hst
      · have hc0 : st.1.card = 0 := by rw [hst]; exact Finset.card_empty
        have hpos : 0 < (dfs v t h w (h * w + 1) st.1 (ij.1 : ℤ) (ij.2 : ℤ)).1.card :=
          Finset.Nonempty.card_pos hne
        have h2 := hcard
        refine le_trans ?_ (le_max_right _ _)
        omega
      · exact le_trans (hinv.2.2 hst) (le_max_left _ _)
  · rw [if_neg hcond]
    exact hinv

lemma foldl_lccStep_inv (v : ℕ → ℕ → ℚ) (t : ℚ) (h w : ℕ) :
    ∀ (l : List (ℕ × ℕ)) (st : Finset (ℤ × ℤ) × ℕ), lccInv v t h w st →
      lccInv v t h w (l.foldl (lccStep v t h w) st) := by
  intro l
  induction l with
  | nil => intro st hinv; exact hinv
  | cons q qs ih =>
    intro st hinv
    exact ih _ (lccStep_inv hinv q)

lemma lccStep_snd_mono (v : ℕ → ℕ → ℚ) (t : ℚ) (h w : ℕ)
    (st : Finset (ℤ × ℤ) × ℕ) (ij : ℕ × ℕ) :
    st.2 ≤ (lccStep v t h w st ij).2 := by
  rw [lccStep]
  by_cases hcond : ((ij.1 : ℤ), (ij.2 : ℤ)) ∉ st.1 ∧ t < v ij.1 ij.2
  · rw [if_pos hcond]
    exact le_max_left _ _
  · rw [if_neg hcond]

lemma foldl_lccStep_snd_mono (v : ℕ → ℕ → ℚ) (t : ℚ) (h w : ℕ) :
    ∀ (l : List (ℕ × ℕ)) (st : Finset (ℤ × ℤ) × ℕ),
      st.2 ≤ (l.foldl (lccStep v t h w) st).2 := by
  intro l
  induction l with
  | nil => intro st; exact le_refl _
  | cons q qs ih =>
    intro st
    exact le_trans (lccStep_snd_mono v t h w st q) (ih _)

lemma foldl_lcc_ge_one (v : ℕ → ℕ → ℚ) (t : ℚ) (h w : ℕ) :
    ∀ (l : List (ℕ × ℕ)) (st : Finset (ℤ × ℤ) × ℕ), lccInv v t h w st →
      ∀ i j : ℕ, (i, j) ∈ l → i < h → j < w → t < v i j →
        1 ≤ (l.foldl (lccStep v t h w) st).2 := by
  intro l
  induction l with
  | nil => intro st _ i j hij; simp at hij
  | cons q qs ih =>
    intro st hinv i j hij hi hj ht
    rcases List.mem_cons.mp hij with heq | hmem
    · rw [List.foldl_cons]
      apply le_trans _ (foldl_lccStep_snd_mono v t h w qs (lccStep v t h w st q))
      rw [← heq, lccStep]
      by_cases hcond : (((i, j).1 : ℤ), ((i, j).2 : ℤ)) ∉ st.1 ∧
          t < v (i, j).1 (i, j).2
      · rw [if_pos hcond]
        have hguard : ¬(((i : ℕ) : ℤ) < 0 ∨ (h : ℤ) ≤ ((i : ℕ) : ℤ) ∨
            ((j : ℕ) : ℤ) < 0 ∨ (w : ℤ) ≤ ((j : ℕ) : ℤ) ∨
            (((i : ℕ) : ℤ), ((j : ℕ) : ℤ)) ∈ st.1 ∨
            v ((i : ℕ) : ℤ).toNat ((j : ℕ) : ℤ).toNat ≤ t) := by
          push_neg
          refine ⟨by omega, by omega, by omega, by omega, hcond.1, ?_⟩
          simpa using not_le_of_lt ht
        have hd := dfs_snd_pos v t h w (h * w) st.1 (i : ℤ) (j : ℤ) hguard
        show 1 ≤ max st.2
          (dfs v t h w (h * w + 1) st.1 (((i, j).1 : ℕ) : ℤ) (((i, j).2 : ℕ) : ℤ)).2
        exact le_trans hd (le_max_right _ _)
      · rw [if_neg hcond]
        push_neg at hcond
        have hmemv : (((i : ℕ) : ℤ), ((j : ℕ) : ℤ)) ∈ st.1 := by
          by_contra hnv
          exact absurd ht (not_lt_of_le (hcond hnv))
        exact hinv.2.2 ⟨_, hmemv⟩
    · rw [List.foldl_cons]
      exact ih (lccStep v t h w st q) (lccStep_inv hinv q) i j hmem hi hj ht

lemma foldl_lcc_zero (v : ℕ → ℕ → ℚ) (t : ℚ) (h w : ℕ) :
    ∀ (l : List (ℕ × ℕ)) (st : Finset (ℤ × ℤ) × ℕ),
      (∀ p ∈ l, ¬ t < v p.1 p.2) →
      l.foldl (lccStep v t h w) st = st := by
  intro l
  induction l with
  | nil => intro st _; rfl
  | cons q qs ih =>
    intro st hall
    rw [List.foldl_cons, lccStep,
      if_neg fun hc => hall q (List.mem_cons_self _ _) hc.2]
    exact ih st fun p hp => hall p (List.mem_cons_of_mem _ hp)

/-- Claim C9: the largest-connected-component size never exceeds the
number of cells with value above the threshold, and it is `0` exactly when
no cell exceeds the threshold. -/
theorem calculateLCC_le_affected (v : ℕ → ℕ → ℚ) (t : ℚ) (h w : ℕ) :
    calculateLCC v t h w ≤ affectedPixels v h w t ∧
    (calculateLCC v t h w = 0 ↔ ¬ ∃ i j : ℕ, i < h ∧ j < w ∧ t < v i j) := by
  have hinv0 : lccInv v t h w (∅, 0) :=
    ⟨Finset.empty_subset _, Nat.zero_le _, fun hne => absurd hne (by simp)⟩
  have hinvF := foldl_lccStep_inv v t h w (cellsList h w) (∅, 0) hinv0
  refine ⟨hinvF.2.1, ?_, ?_⟩
  · intro h0
    rintro ⟨i, j, hi, hj, ht⟩
    have hge := foldl_lcc_ge_one v t h w (cellsList h w) (∅, 0) hinv0 i j
      (mem_cellsList.mpr ⟨hi, hj⟩) hi hj ht
    rw [calculateLCC] at h0
    omega
  · intro hno
    rw [calculateLCC, foldl_lcc_zero v t h w (cellsList h w) (∅, 0)]
    intro p hp hpt
    rcases mem_cellsList.mp hp with ⟨hi, hj⟩
    exact hno ⟨p.1, p.2, hi, hj, hpt⟩

end SightScanner
